import Mathlib

/-!
Shallow embedding of `telethon/client/chats.py` (participant enumeration):
`iter_participants` and `get_participants` of `ChatMethods`.

External collaborators (RPC transport, entity resolver, display-name
formatter) are modelled as inputs: a `World` value carries the responses the
remote side would produce (the full-channel participant count, the stream of
batched `GetParticipantsRequest` responses, the full-chat object, and the
resolved full user record).  Python exceptions (`KeyError` on the user-map
lookup, `AttributeError` on `None.lower()`, `TypeError` on `None[0] = 0`)
are modelled explicitly: the run outcome records whether the generator
finished normally or raised after having yielded a prefix of users.
-/

/-- A user record as returned by the API.  `displayName` is the string the
external display-name formatter (`utils.get_display_name`) produces for it;
`username` is `none` when the attribute is `None`/absent in Python. -/
structure TLUser where
  id : Nat
  displayName : String
  username : Option String
deriving DecidableEq

/-- A participant record (channel or chat membership fact), keyed by
`user_id`; `payload` stands for the rest of the record (role, date, ...). -/
structure ParticipantRecord where
  user_id : Nat
  payload : Nat
deriving DecidableEq

/-- A user enriched with its matched participant record (`.participant` in
the source); `none` for the single-user fallback. -/
structure EnrichedUser where
  user : TLUser
  participant : Option ParticipantRecord
deriving DecidableEq

/-- `ChannelParticipantsFilter`: the search variant carries its query `q`;
all other (structural) variants are opaque tags. -/
inductive ChannelParticipantsFilter where
  | search (q : String)
  | structural (tag : Nat)
deriving DecidableEq

/-- `GetParticipantsRequest` as built by the planner (line 93-107). -/
structure GetParticipantsRequest where
  channel : Nat
  filter : ChannelParticipantsFilter
  offset : Nat
  limit : Int
  hash : Nat
deriving DecidableEq

/-- One response to a `GetParticipantsRequest` (`channels.ChannelParticipants`):
a list of participant records plus the accompanying user list. -/
structure ChannelParticipantsResult where
  participants : List ParticipantRecord
  users : List TLUser
deriving DecidableEq

/-- `full.full_chat.participants` of a basic group: either the resolved
`ChatParticipants` list or the `ChatParticipantsForbidden` variant. -/
inductive ChatParticipantsField where
  | participantsOk (ps : List ParticipantRecord)
  | forbidden
deriving DecidableEq

/-- Result of `GetFullChatRequest`: the participants field and the user list. -/
structure ChatFull where
  chatParticipants : ChatParticipantsField
  users : List TLUser
deriving DecidableEq

/-- The resolved input entity (`get_input_entity` result): channel/supergroup
(`InputPeerChannel`), basic group (`InputPeerChat`), or anything else
(single user). -/
inductive Entity where
  | channel (id : Nat)
  | chat (id : Nat)
  | user (id : Nat)
deriving DecidableEq

def Entity.isChannel : Entity → Bool
  | .channel _ => true
  | _ => false

/-- `limit = float('inf') if limit is None else int(limit)` (line 77):
either infinity or a (possibly negative) integer. -/
inductive Lim where
  | inf
  | fin (n : Int)
deriving DecidableEq

/-- `limit == 0` (line 88). -/
def Lim.eqZero : Lim → Bool
  | .inf => false
  | .fin n => n == 0

/-- `min(limit - offset, 200)` (line 116); with an infinite limit the
minimum is 200. -/
def Lim.pageSize : Lim → Nat → Int
  | .inf, _ => 200
  | .fin n, off => min (n - (off : Int)) 200

/-- `requests[0].offset > limit` (line 117). -/
def Lim.ltOffset : Lim → Nat → Bool
  | .inf, _ => false
  | .fin n, off => n < (off : Int)

/-- `len(seen) >= limit` (line 137). -/
def Lim.leSeen : Lim → Nat → Bool
  | .inf, _ => false
  | .fin n, k => n ≤ (k : Int)

/-- `have > limit` (line 160). -/
def Lim.ltCount : Lim → Nat → Bool
  | .inf, _ => false
  | .fin n, k => n < (k : Int)

/-- Python `s.lower()` viewed as a character list. -/
def lowerChars (s : String) : List Char := s.data.map Char.toLower

/-- Python substring test `needle in hay` on character lists. -/
def isSubList (needle : List Char) : List Char → Bool
  | [] => needle.isEmpty
  | c :: t => needle.isPrefixOf (c :: t) || isSubList needle t

/-- `getattr(ent, 'username', '') or None` (line 72): `none` exactly when
the username is absent/`None` or the empty string (both falsy in Python). -/
def usernameTruthy (u : TLUser) : Option String :=
  match u.username with
  | none => none
  | some s => if s = "" then none else some s

/-- The condition of line 65-66: `search and (filter or not
isinstance(entity, types.InputPeerChannel))`. -/
def searchActive (entity : Entity) (search : String)
    (filter : Option ChannelParticipantsFilter) : Bool :=
  search ≠ "" && (filter.isSome || !entity.isChannel)

/-- The local match predicate `filter_entity` (lines 65-75).  `none` models
the `AttributeError` raised by `(... or None).lower()` when the display name
does not match and the username is falsy; otherwise `some` of the match
result.  In the inactive configuration the predicate accepts everything. -/
def filter_entity (entity : Entity) (search : String)
    (filter : Option ChannelParticipantsFilter) (ent : TLUser) : Option Bool :=
  if searchActive entity search filter then
    if isSubList (lowerChars search) (lowerChars ent.displayName) then some true
    else
      match usernameTruthy ent with
      | none => none
      | some un => some (isSubList (lowerChars search) (lowerChars un))
  else some true

/-- `search = search.lower()` happens only in the search-active branch
(line 68); the planner sees the possibly-lowered string. -/
def effSearch (entity : Entity) (search : String)
    (filter : Option ChannelParticipantsFilter) : String :=
  if searchActive entity search filter then ⟨lowerChars search⟩ else search

/-- The lowercase letters `chr(x) for x in range(ord('a'), ord('z') + 1)`. -/
def lowercaseLetters : List Char := (List.range 26).map (fun i => Char.ofNat (97 + i))

/-- The request planner (lines 92-107): 26 letter shards when the fetched
total exceeds 10000, aggressive mode is on and no filter is given;
a single request otherwise. -/
def planRequests (chanId : Nat) (search : String)
    (filter : Option ChannelParticipantsFilter) (aggressive : Bool)
    (total : Nat) : List GetParticipantsRequest :=
  if 10000 < total && aggressive && filter.isNone then
    lowercaseLetters.map (fun c =>
      { channel := chanId, filter := .search (search.push c),
        offset := 0, limit := 200, hash := 0 })
  else
    [{ channel := chanId, filter := filter.getD (.search search),
       offset := 0, limit := 200, hash := 0 }]

/-- `users = {user.id: user for user in ...}; users[uid]` (lines 127/129 and
154/156): dict comprehension semantics, later duplicate keys override
earlier ones; `none` models the `KeyError` when no user carries `uid`. -/
def dictLookup (us : List TLUser) (uid : Nat) : Option TLUser :=
  match us with
  | [] => none
  | u :: rest =>
    match dictLookup rest uid with
    | some v => some v
    | none => if u.id = uid then some u else none

/-- Python exceptions that the engine can raise. -/
inductive Err where
  | keyError
  | attributeError
  | typeError
deriving DecidableEq

/-- How the inner per-response loop (lines 128-138) ended. -/
inductive InnerExit where
  | normal
  | stopped
  | errored (e : Err)
deriving DecidableEq

/-- Result of the inner per-response loop: yielded users, the updated `seen`
set (newest id first), and how the loop ended. -/
structure InnerRes where
  ys : List EnrichedUser
  seen : List Nat
  exit : InnerExit
deriving DecidableEq

/-- The per-response participant loop (lines 128-138): unguarded user-map
lookup, predicate application (which may raise), `seen`-set dedup, yield,
and the early `return` once `len(seen) >= limit`. -/
def processParticipants (pred : TLUser → Option Bool) (lim : Lim)
    (usersList : List TLUser) :
    List ParticipantRecord → List Nat → InnerRes
  | [], seen => ⟨[], seen, .normal⟩
  | p :: ps, seen =>
    match dictLookup usersList p.user_id with
    | none => ⟨[], seen, .errored .keyError⟩
    | some u =>
      match pred u with
      | none => ⟨[], seen, .errored .attributeError⟩
      | some b =>
        if !b || seen.contains u.id then
          processParticipants pred lim usersList ps seen
        else
          let seen' := p.user_id :: seen
          let y : EnrichedUser := ⟨u, some p⟩
          if lim.leSeen seen'.length then ⟨[y], seen', .stopped⟩
          else
            let r := processParticipants pred lim usersList ps seen'
            ⟨y :: r.ys, r.seen, r.exit⟩

/-- Result of processing one batch of responses (lines 121-138): either the
loop continues with the surviving requests, or the generator returned early
(limit reached), or an exception was raised. -/
inductive BatchRes where
  | cont (reqs : List GetParticipantsRequest) (seen : List Nat) (ys : List EnrichedUser)
  | stop (seen : List Nat) (ys : List EnrichedUser)
  | errored (e : Err) (seen : List Nat) (ys : List EnrichedUser)
deriving DecidableEq

/-- The `for i in reversed(range(len(requests)))` loop (lines 121-138) over
already-reversed (request, response) pairs: a response with an empty user
list retires its request; otherwise the request's offset advances by the
number of participant records and the inner loop runs.  Surviving requests
are rebuilt in original order. -/
def processReversed (pred : TLUser → Option Bool) (lim : Lim) :
    List (GetParticipantsRequest × ChannelParticipantsResult) → List Nat → BatchRes
  | [], seen => .cont [] seen []
  | (r, res) :: rest, seen =>
    if res.users.isEmpty then
      processReversed pred lim rest seen
    else
      let r' := { r with offset := r.offset + res.participants.length }
      let inner := processParticipants pred lim res.users res.participants seen
      match inner.exit with
      | .errored e => .errored e inner.seen inner.ys
      | .stopped => .stop inner.seen inner.ys
      | .normal =>
        match processReversed pred lim rest inner.seen with
        | .cont reqs seen' ys => .cont (reqs ++ [r']) seen' (inner.ys ++ ys)
        | .stop seen' ys => .stop seen' (inner.ys ++ ys)
        | .errored e seen' ys => .errored e seen' (inner.ys ++ ys)

/-- `requests[0].limit = min(limit - requests[0].offset, 200)` (line 116):
only the first request's page size is rewritten. -/
def clampFirst (lim : Lim) : List GetParticipantsRequest → List GetParticipantsRequest
  | [] => []
  | r :: rs => { r with limit := lim.pageSize r.offset } :: rs

/-- One iteration of the `while requests:` body after the break check
(lines 116-138): clamp the first request's page size, pair requests with
their responses, and process them in reversed order. -/
def chanStep (pred : TLUser → Option Bool) (lim : Lim)
    (reqs : List GetParticipantsRequest) (batch : List ChannelParticipantsResult)
    (seen : List Nat) : BatchRes :=
  processReversed pred lim (((clampFirst lim reqs).zip batch).reverse) seen

/-- Outcome of the channel pagination loop: normal completion (request list
empty, break, or early return on limit), exception, or — a model artifact —
the supplied response stream ran out while the loop was still live. -/
inductive LoopRes where
  | done (ys : List EnrichedUser)
  | exhausted (ys : List EnrichedUser)
  | errored (e : Err) (ys : List EnrichedUser)
deriving DecidableEq

def LoopRes.ys : LoopRes → List EnrichedUser
  | .done ys => ys
  | .exhausted ys => ys
  | .errored _ ys => ys

/-- Prepend one batch's yields in front of the rest of the run. -/
def LoopRes.prepend (ys : List EnrichedUser) : LoopRes → LoopRes
  | .done ys₂ => .done (ys ++ ys₂)
  | .exhausted ys₂ => .exhausted (ys ++ ys₂)
  | .errored e ys₂ => .errored e (ys ++ ys₂)

/-- The `while requests:` loop (lines 109-138), consuming one batch of
responses from the oracle stream per iteration. -/
def channelLoop (pred : TLUser → Option Bool) (lim : Lim) :
    List (List ChannelParticipantsResult) → List GetParticipantsRequest →
    List Nat → LoopRes
  | _, [], _ => .done []
  | oracle, r :: rs, seen =>
    if lim.ltOffset r.offset then .done []
    else
      match oracle with
      | [] => .exhausted []
      | batch :: oracle' =>
        match chanStep pred lim (r :: rs) batch seen with
        | .errored e _ ys => .errored e ys
        | .stop _ ys => .done ys
        | .cont reqs' seen' ys =>
          (channelLoop pred lim oracle' reqs' seen').prepend ys

/-- The basic-group participant loop (lines 153-165): counts matching users
in `hcount` (`have` in the source), breaks once `have > limit`, yields
otherwise; the user-map lookup and the predicate may raise. -/
def chatLoop (pred : TLUser → Option Bool) (lim : Lim) (usersList : List TLUser) :
    List ParticipantRecord → Nat → List EnrichedUser × Option Err
  | [], _ => ([], none)
  | p :: ps, hcount =>
    match dictLookup usersList p.user_id with
    | none => ([], some .keyError)
    | some u =>
      match pred u with
      | none => ([], some .attributeError)
      | some b =>
        if !b then chatLoop pred lim usersList ps hcount
        else
          if lim.ltCount (hcount + 1) then ([], none)
          else
            let r := chatLoop pred lim usersList ps (hcount + 1)
            (⟨u, some p⟩ :: r.1, r.2)

/-- The keyword arguments of `iter_participants`.  `hasTotal` is the
truthiness of the `_total` out-parameter (a non-empty list cell). -/
structure IterArgs where
  limit : Lim
  search : String
  filter : Option ChannelParticipantsFilter
  aggressive : Bool
  hasTotal : Bool
deriving DecidableEq

/-- Responses of the external collaborators for one enumeration call. -/
structure World where
  participantsCount : Nat
  channelBatches : List (List ChannelParticipantsResult)
  chatFull : ChatFull
  fullUser : TLUser
deriving DecidableEq

/-- How the generator finished: normally, by raising an exception, or — a
model artifact — the supplied response stream ran out. -/
inductive IterOutcome where
  | ok
  | exn (e : Err)
  | noMoreBatches
deriving DecidableEq

/-- One run of `iter_participants`: the yielded users in order, the value
written into the `_total` cell (if any), and how the generator finished. -/
structure IterRun where
  yields : List EnrichedUser
  totalWritten : Option Nat
  outcome : IterOutcome
deriving DecidableEq

/-- `total` in the channel branch (lines 79-86): the fetched count when
`_total or (aggressive and not filter)`, else 0. -/
def fetchedTotal (a : IterArgs) (w : World) : Nat :=
  if a.hasTotal || (a.aggressive && a.filter.isNone) then w.participantsCount else 0

/-- The requests the channel branch builds (lines 92-107). -/
def channelRequests (chanId : Nat) (a : IterArgs) (w : World) :
    List GetParticipantsRequest :=
  planRequests chanId (effSearch (.channel chanId) a.search a.filter)
    a.filter a.aggressive (fetchedTotal a w)

/-- `iter_participants` (lines 15-173), as a function of the entity, the
arguments and the collaborators' responses. -/
def iter_participants (entity : Entity) (a : IterArgs) (w : World) : IterRun :=
  let pred := filter_entity entity a.search a.filter
  match entity with
  | .channel cid =>
    let total := fetchedTotal a w
    let tw : Option Nat := if a.hasTotal then some total else none
    if a.limit.eqZero then ⟨[], tw, .ok⟩
    else
      match channelLoop pred a.limit w.channelBatches (channelRequests cid a w) [] with
      | .done ys => ⟨ys, tw, .ok⟩
      | .exhausted ys => ⟨ys, tw, .noMoreBatches⟩
      | .errored e ys => ⟨ys, tw, .exn e⟩
  | .chat _ =>
    match w.chatFull.chatParticipants with
    | .forbidden =>
      if a.hasTotal then ⟨[], some 0, .ok⟩
      else ⟨[], none, .exn .typeError⟩
    | .participantsOk ps =>
      let tw : Option Nat := if a.hasTotal then some ps.length else none
      match chatLoop pred a.limit w.chatFull.users ps 0 with
      | (ys, none) => ⟨ys, tw, .ok⟩
      | (ys, some e) => ⟨ys, tw, .exn e⟩
  | .user _ =>
    let tw : Option Nat := if a.hasTotal then some 1 else none
    if a.limit.eqZero then ⟨[], tw, .ok⟩
    else
      match pred w.fullUser with
      | none => ⟨[], tw, .exn .attributeError⟩
      | some true => ⟨[⟨w.fullUser, none⟩], tw, .ok⟩
      | some false => ⟨[], tw, .ok⟩

/-- Result of `get_participants`: the materialized list with its `.total`
attribute, or the propagated exception. -/
inductive GetResult where
  | ok (items : List EnrichedUser) (total : Nat)
  | exn (e : Err)
  | noMoreBatches
deriving DecidableEq

/-- `get_participants` (lines 175-186): forces a fresh `_total` cell
initialized to 0, drains the iterator into a list and attaches the cell's
final value as `.total`. -/
def get_participants (entity : Entity) (a : IterArgs) (w : World) : GetResult :=
  let run := iter_participants entity { a with hasTotal := true } w
  match run.outcome with
  | .ok => .ok run.yields (run.totalWritten.getD 0)
  | .exn e => .exn e
  | .noMoreBatches => .noMoreBatches

/-- The user ids yielded by a run. -/
def idsOf (ys : List EnrichedUser) : List Nat := ys.map (fun y => y.user.id)

theorem dictLookup_id (us : List TLUser) (uid : Nat) (u : TLUser)
    (h : dictLookup us uid = some u) : u.id = uid := by
  induction us with
  | nil => simp [dictLookup] at h
  | cons v rest ih =>
    simp only [dictLookup] at h
    rcases hr : dictLookup rest uid with _ | w
    · simp only [hr] at h
      by_cases hv : v.id = uid
      · rw [if_pos hv] at h; cases h; exact hv
      · rw [if_neg hv] at h; cases h
    · simp only [hr] at h; cases h; exact ih hr

theorem pp_seen_eq (pred : TLUser → Option Bool) (lim : Lim)
    (usersList : List TLUser) (ps : List ParticipantRecord) (seen : List Nat) :
    (processParticipants pred lim usersList ps seen).seen =
      (idsOf (processParticipants pred lim usersList ps seen).ys).reverse ++ seen := by
  induction ps generalizing seen with
  | nil => simp [processParticipants, idsOf]
  | cons p ps ih =>
    simp only [processParticipants]
    rcases hd : dictLookup usersList p.user_id with _ | u
    · simp [idsOf]
    · simp only []
      rcases hp : pred u with _ | b
      · simp [idsOf]
      · simp only []
        by_cases hsk : (!b || seen.contains u.id) = true
        · rw [if_pos hsk]; exact ih seen
        · rw [if_neg hsk]
          have hu : u.id = p.user_id := dictLookup_id usersList p.user_id u hd
          simp only [List.length_cons]
          by_cases hst : lim.leSeen (seen.length + 1) = true
          · rw [if_pos hst]; simp [idsOf, hu]
          · rw [if_neg hst]
            have := ih (p.user_id :: seen)
            simp [idsOf, this, hu]

theorem pp_nodup (pred : TLUser → Option Bool) (lim : Lim)
    (usersList : List TLUser) (ps : List ParticipantRecord) (seen : List Nat)
    (h : seen.Nodup) : (processParticipants pred lim usersList ps seen).seen.Nodup := by
  induction ps generalizing seen with
  | nil => simpa [processParticipants] using h
  | cons p ps ih =>
    simp only [processParticipants]
    rcases hd : dictLookup usersList p.user_id with _ | u
    · simpa using h
    · simp only []
      rcases hp : pred u with _ | b
      · simpa using h
      · simp only []
        by_cases hsk : (!b || seen.contains u.id) = true
        · rw [if_pos hsk]; exact ih seen h
        · rw [if_neg hsk]
          have hu : u.id = p.user_id := dictLookup_id usersList p.user_id u hd
          have hmem : p.user_id ∉ seen := by
            rw [Bool.or_eq_true, not_or] at hsk
            have := hsk.2
            rw [← hu]
            simpa using this
          have hns : (p.user_id :: seen).Nodup := List.nodup_cons.mpr ⟨hmem, h⟩
          simp only [List.length_cons]
          by_cases hst : lim.leSeen (seen.length + 1) = true
          · rw [if_pos hst]; exact hns
          · rw [if_neg hst]; exact ih (p.user_id :: seen) hns

theorem pp_bound (pred : TLUser → Option Bool) (usersList : List TLUser)
    (n : Int) (ps : List ParticipantRecord) (seen : List Nat)
    (h : (seen.length : Int) < n) :
    ((processParticipants pred (.fin n) usersList ps seen).seen.length : Int) ≤ n ∧
    ((processParticipants pred (.fin n) usersList ps seen).exit ≠ .stopped →
      ((processParticipants pred (.fin n) usersList ps seen).seen.length : Int) < n) := by
  induction ps generalizing seen with
  | nil => exact ⟨le_of_lt h, fun _ => h⟩
  | cons p ps ih =>
    simp only [processParticipants]
    rcases hd : dictLookup usersList p.user_id with _ | u
    · exact ⟨le_of_lt h, fun _ => h⟩
    · simp only []
      rcases hp : pred u with _ | b
      · exact ⟨le_of_lt h, fun _ => h⟩
      · simp only []
        by_cases hsk : (!b || seen.contains u.id) = true
        · rw [if_pos hsk]; exact ih seen h
        · rw [if_neg hsk]
          simp only [List.length_cons]
          by_cases hst : Lim.leSeen (.fin n) (seen.length + 1) = true
          · rw [if_pos hst]
            refine ⟨?_, fun hc => absurd rfl hc⟩
            simp only [List.length_cons]
            omega
          · rw [if_neg hst]
            have hlt : ((seen.length + 1 : Nat) : Int) < n := by
              simp only [Lim.leSeen, decide_eq_true_eq] at hst
              omega
            have := ih (p.user_id :: seen) (by simpa using hlt)
            simpa using this

def BatchRes.seenOf : BatchRes → List Nat
  | .cont _ s _ => s
  | .stop s _ => s
  | .errored _ s _ => s

def BatchRes.ysOf : BatchRes → List EnrichedUser
  | .cont _ _ ys => ys
  | .stop _ ys => ys
  | .errored _ _ ys => ys

def BatchRes.isCont : BatchRes → Bool
  | .cont _ _ _ => true
  | _ => false

theorem pr_seen_eq (pred : TLUser → Option Bool) (lim : Lim)
    (pairs : List (GetParticipantsRequest × ChannelParticipantsResult)) (seen : List Nat) :
    (processReversed pred lim pairs seen).seenOf =
      (idsOf (processReversed pred lim pairs seen).ysOf).reverse ++ seen := by
  induction pairs generalizing seen with
  | nil => simp [processReversed, BatchRes.seenOf, BatchRes.ysOf, idsOf]
  | cons pr rest ih =>
    rcases pr with ⟨r, res⟩
    simp only [processReversed]
    by_cases he : res.users.isEmpty = true
    · rw [if_pos he]; exact ih seen
    · rw [if_neg he]
      have hin := pp_seen_eq pred lim res.users res.participants seen
      rcases hx : (processParticipants pred lim res.users res.participants seen).exit with _ | _ | e
      · simp only [hx]
        rcases hres : processReversed pred lim rest
            (processParticipants pred lim res.users res.participants seen).seen with
          ⟨reqs2, seen2, ys2⟩ | ⟨seen2, ys2⟩ | ⟨e2, seen2, ys2⟩ <;>
        · have := ih ((processParticipants pred lim res.users res.participants seen).seen)
          rw [hres] at this
          simp only [BatchRes.seenOf, BatchRes.ysOf] at this ⊢
          rw [this, hin]
          simp [idsOf]
      · simp [hx, BatchRes.seenOf, BatchRes.ysOf, hin]
      · simp [hx, BatchRes.seenOf, BatchRes.ysOf, hin]

theorem pr_len (pred : TLUser → Option Bool) (lim : Lim)
    (pairs : List (GetParticipantsRequest × ChannelParticipantsResult)) (seen : List Nat) :
    (processReversed pred lim pairs seen).seenOf.length =
      (processReversed pred lim pairs seen).ysOf.length + seen.length := by
  rw [pr_seen_eq]
  simp [idsOf]

theorem pr_nodup (pred : TLUser → Option Bool) (lim : Lim)
    (pairs : List (GetParticipantsRequest × ChannelParticipantsResult)) (seen : List Nat)
    (h : seen.Nodup) : (processReversed pred lim pairs seen).seenOf.Nodup := by
  induction pairs generalizing seen with
  | nil => simpa [processReversed, BatchRes.seenOf] using h
  | cons pr rest ih =>
    rcases pr with ⟨r, res⟩
    simp only [processReversed]
    by_cases he : res.users.isEmpty = true
    · rw [if_pos he]; exact ih seen h
    · rw [if_neg he]
      have hin := pp_nodup pred lim res.users res.participants seen h
      rcases hx : (processParticipants pred lim res.users res.participants seen).exit with _ | _ | e
      · simp only [hx]
        rcases hres : processReversed pred lim rest
            (processParticipants pred lim res.users res.participants seen).seen with
          ⟨reqs2, seen2, ys2⟩ | ⟨seen2, ys2⟩ | ⟨e2, seen2, ys2⟩ <;>
        · have := ih ((processParticipants pred lim res.users res.participants seen).seen) hin
          rw [hres] at this
          simpa [BatchRes.seenOf] using this
      · simpa [hx, BatchRes.seenOf] using hin
      · simpa [hx, BatchRes.seenOf] using hin

theorem pr_bound (pred : TLUser → Option Bool) (n : Int)
    (pairs : List (GetParticipantsRequest × ChannelParticipantsResult)) (seen : List Nat)
    (h : (seen.length : Int) < n) :
    (((processReversed pred (.fin n) pairs seen).seenOf.length : Int) ≤ n) ∧
    ((processReversed pred (.fin n) pairs seen).isCont = true →
      ((processReversed pred (.fin n) pairs seen).seenOf.length : Int) < n) := by
  induction pairs generalizing seen with
  | nil => exact ⟨by simpa [processReversed, BatchRes.seenOf] using le_of_lt h,
      fun _ => by simpa [processReversed, BatchRes.seenOf] using h⟩
  | cons pr rest ih =>
    rcases pr with ⟨r, res⟩
    simp only [processReversed]
    by_cases he : res.users.isEmpty = true
    · rw [if_pos he]; exact ih seen h
    · rw [if_neg he]
      have hb := pp_bound pred res.users n res.participants seen h
      rcases hx : (processParticipants pred (.fin n) res.users res.participants seen).exit with _ | _ | e
      · simp only [hx]
        have hlt : (((processParticipants pred (.fin n) res.users res.participants seen).seen.length : Int)) < n :=
          hb.2 (by rw [hx]; simp)
        rcases hres : processReversed pred (.fin n) rest
            (processParticipants pred (.fin n) res.users res.participants seen).seen with
          ⟨reqs2, seen2, ys2⟩ | ⟨seen2, ys2⟩ | ⟨e2, seen2, ys2⟩ <;>
        · have := ih ((processParticipants pred (.fin n) res.users res.participants seen).seen) hlt
          rw [hres] at this
          simpa [BatchRes.seenOf, BatchRes.isCont] using this
      · exact ⟨by simpa [hx, BatchRes.seenOf] using hb.1, by simp [hx, BatchRes.isCont]⟩
      · exact ⟨by simpa [hx, BatchRes.seenOf] using hb.1, by simp [hx, BatchRes.isCont]⟩

theorem cs_seen_eq (pred : TLUser → Option Bool) (lim : Lim)
    (reqs : List GetParticipantsRequest) (batch : List ChannelParticipantsResult)
    (seen : List Nat) :
    (chanStep pred lim reqs batch seen).seenOf =
      (idsOf (chanStep pred lim reqs batch seen).ysOf).reverse ++ seen :=
  pr_seen_eq pred lim (((clampFirst lim reqs).zip batch).reverse) seen

theorem cs_len (pred : TLUser → Option Bool) (lim : Lim)
    (reqs : List GetParticipantsRequest) (batch : List ChannelParticipantsResult)
    (seen : List Nat) :
    (chanStep pred lim reqs batch seen).seenOf.length =
      (chanStep pred lim reqs batch seen).ysOf.length + seen.length :=
  pr_len pred lim (((clampFirst lim reqs).zip batch).reverse) seen

theorem cs_nodup (pred : TLUser → Option Bool) (lim : Lim)
    (reqs : List GetParticipantsRequest) (batch : List ChannelParticipantsResult)
    (seen : List Nat) (h : seen.Nodup) :
    (chanStep pred lim reqs batch seen).seenOf.Nodup :=
  pr_nodup pred lim (((clampFirst lim reqs).zip batch).reverse) seen h

theorem cs_bound (pred : TLUser → Option Bool) (n : Int)
    (reqs : List GetParticipantsRequest) (batch : List ChannelParticipantsResult)
    (seen : List Nat) (h : (seen.length : Int) < n) :
    (((chanStep pred (.fin n) reqs batch seen).seenOf.length : Int) ≤ n) ∧
    ((chanStep pred (.fin n) reqs batch seen).isCont = true →
      ((chanStep pred (.fin n) reqs batch seen).seenOf.length : Int) < n) :=
  pr_bound pred n (((clampFirst (.fin n) reqs).zip batch).reverse) seen h

theorem prepend_ys (ys : List EnrichedUser) (l : LoopRes) :
    (l.prepend ys).ys = ys ++ l.ys := by
  cases l <;> rfl

theorem cl_bound (pred : TLUser → Option Bool) (n : Int)
    (oracle : List (List ChannelParticipantsResult))
    (reqs : List GetParticipantsRequest) (seen : List Nat)
    (h : (seen.length : Int) < n) :
    ((channelLoop pred (.fin n) oracle reqs seen).ys.length : Int) + seen.length ≤ n := by
  induction oracle generalizing reqs seen with
  | nil =>
    rcases reqs with _ | ⟨r, rs⟩
    · simp [channelLoop, LoopRes.ys]; omega
    · simp only [channelLoop]
      by_cases hbr : Lim.ltOffset (.fin n) r.offset = true
      · rw [if_pos hbr]; simp [LoopRes.ys]; omega
      · rw [if_neg hbr]; simp [LoopRes.ys]; omega
  | cons batch oracle' ih =>
    rcases reqs with _ | ⟨r, rs⟩
    · simp [channelLoop, LoopRes.ys]; omega
    · simp only [channelLoop]
      by_cases hbr : Lim.ltOffset (.fin n) r.offset = true
      · rw [if_pos hbr]; simp [LoopRes.ys]; omega
      · rw [if_neg hbr]
        have hlen := cs_len pred (.fin n) (r :: rs) batch seen
        have hbd := cs_bound pred n (r :: rs) batch seen h
        rcases hs : chanStep pred (.fin n) (r :: rs) batch seen with
          ⟨reqs', seen', ys⟩ | ⟨seen', ys⟩ | ⟨e, seen', ys⟩
        · rw [hs] at hlen hbd
          have hlt : ((seen'.length : Int)) < n := hbd.2 rfl
          simp only [BatchRes.seenOf, BatchRes.ysOf] at hlen
          have hrec := ih reqs' seen' hlt
          rw [prepend_ys]
          simp only [List.length_append]
          push_cast at hrec ⊢
          omega
        · rw [hs] at hlen hbd
          simp only [BatchRes.seenOf, BatchRes.ysOf] at hlen hbd
          simp only [LoopRes.ys]
          omega
        · rw [hs] at hlen hbd
          simp only [BatchRes.seenOf, BatchRes.ysOf] at hlen hbd
          simp only [LoopRes.ys]
          omega

theorem cl_nodup (pred : TLUser → Option Bool) (lim : Lim)
    (oracle : List (List ChannelParticipantsResult))
    (reqs : List GetParticipantsRequest) (seen : List Nat)
    (h : seen.Nodup) :
    ((idsOf (channelLoop pred lim oracle reqs seen).ys).reverse ++ seen).Nodup := by
  induction oracle generalizing reqs seen with
  | nil =>
    rcases reqs with _ | ⟨r, rs⟩
    · simpa [channelLoop, LoopRes.ys, idsOf] using h
    · simp only [channelLoop]
      by_cases hbr : lim.ltOffset r.offset = true
      · rw [if_pos hbr]; simpa [LoopRes.ys, idsOf] using h
      · rw [if_neg hbr]; simpa [LoopRes.ys, idsOf] using h
  | cons batch oracle' ih =>
    rcases reqs with _ | ⟨r, rs⟩
    · simpa [channelLoop, LoopRes.ys, idsOf] using h
    · simp only [channelLoop]
      by_cases hbr : lim.ltOffset r.offset = true
      · rw [if_pos hbr]; simpa [LoopRes.ys, idsOf] using h
      · rw [if_neg hbr]
        have hse := cs_seen_eq pred lim (r :: rs) batch seen
        have hnd := cs_nodup pred lim (r :: rs) batch seen h
        rcases hs : chanStep pred lim (r :: rs) batch seen with
          ⟨reqs', seen', ys⟩ | ⟨seen', ys⟩ | ⟨e, seen', ys⟩
        · rw [hs] at hse hnd
          simp only [BatchRes.seenOf, BatchRes.ysOf] at hse hnd
          have hrec := ih reqs' seen' hnd
          rw [prepend_ys]
          set L := (channelLoop pred lim oracle' reqs' seen').ys with hL
          rw [hse] at hrec
          simpa [idsOf, List.reverse_append, List.append_assoc] using hrec
        · rw [hs] at hse hnd
          simp only [BatchRes.seenOf, BatchRes.ysOf] at hse hnd
          simp only [LoopRes.ys]
          rw [← hse]; exact hnd
        · rw [hs] at hse hnd
          simp only [BatchRes.seenOf, BatchRes.ysOf] at hse hnd
          simp only [LoopRes.ys]
          rw [← hse]; exact hnd

theorem ch_bound (pred : TLUser → Option Bool) (usersList : List TLUser)
    (n : Int) (ps : List ParticipantRecord) (hcount : Nat)
    (h : (hcount : Int) ≤ n) :
    ((chatLoop pred (.fin n) usersList ps hcount).1.length : Int) + hcount ≤ n := by
  induction ps generalizing hcount with
  | nil => simpa [chatLoop] using h
  | cons p ps ih =>
    simp only [chatLoop]
    rcases hd : dictLookup usersList p.user_id with _ | u
    · simpa using h
    · simp only []
      rcases hp : pred u with _ | b
      · simpa using h
      · simp only []
        by_cases hb : (!b) = true
        · rw [if_pos hb]; exact ih hcount h
        · rw [if_neg hb]
          by_cases hc : Lim.ltCount (.fin n) (hcount + 1) = true
          · rw [if_pos hc]; simpa using h
          · rw [if_neg hc]
            have hle : ((hcount + 1 : Nat) : Int) ≤ n := by
              simp only [Lim.ltCount, decide_eq_true_eq] at hc
              omega
            have := ih (hcount + 1) hle
            simp only [List.length_cons]
            push_cast at this ⊢
            omega

theorem iter_channel_yields (cid : Nat) (a : IterArgs) (w : World) :
    (iter_participants (.channel cid) a w).yields =
      if a.limit.eqZero then []
      else (channelLoop (filter_entity (.channel cid) a.search a.filter) a.limit
        w.channelBatches (channelRequests cid a w) []).ys := by
  simp only [iter_participants]
  by_cases hz : a.limit.eqZero = true
  · rw [if_pos hz, if_pos hz]
  · rw [if_neg hz, if_neg hz]
    rcases hl : channelLoop (filter_entity (.channel cid) a.search a.filter) a.limit
        w.channelBatches (channelRequests cid a w) [] with ys | ys | ⟨e, ys⟩ <;>
      simp [hl, LoopRes.ys]

theorem iter_chat_yields (gid : Nat) (a : IterArgs) (w : World) :
    (iter_participants (.chat gid) a w).yields =
      match w.chatFull.chatParticipants with
      | .forbidden => []
      | .participantsOk ps =>
        (chatLoop (filter_entity (.chat gid) a.search a.filter) a.limit
          w.chatFull.users ps 0).1 := by
  simp only [iter_participants]
  rcases hp : w.chatFull.chatParticipants with ps | _
  · rcases hc : chatLoop (filter_entity (.chat gid) a.search a.filter) a.limit
        w.chatFull.users ps 0 with ⟨ys, _ | e⟩ <;> simp [hc]
  · by_cases ht : a.hasTotal = true <;> simp [ht]

theorem iter_user_yields (uid : Nat) (a : IterArgs) (w : World) :
    (iter_participants (.user uid) a w).yields =
      if a.limit.eqZero then []
      else
        match filter_entity (.user uid) a.search a.filter w.fullUser with
        | none => []
        | some true => [⟨w.fullUser, none⟩]
        | some false => [] := by
  simp only [iter_participants]
  by_cases hz : a.limit.eqZero = true
  · rw [if_pos hz, if_pos hz]
  · rw [if_neg hz, if_neg hz]
    rcases hp : filter_entity (.user uid) a.search a.filter w.fullUser with _ | b
    · rfl
    · cases b <;> simp [hp]

/-- C1: for every entity kind and every non-negative finite limit, the
number of users yielded by one run of `iter_participants` — whether the run
finishes normally, raises, or the response stream runs out — never exceeds
the limit; in particular a limit of 0 yields nothing. -/
theorem C1_yields_le_limit (entity : Entity) (a : IterArgs) (w : World) (n : Int)
    (hlim : a.limit = .fin n) (hn : 0 ≤ n) :
    ((iter_participants entity a w).yields.length : Int) ≤ n := by
  cases entity with
  | channel cid =>
    rw [iter_channel_yields, hlim]
    by_cases hz : (Lim.fin n).eqZero = true
    · rw [if_pos hz]; simpa using hn
    · rw [if_neg hz]
      have hne : n ≠ 0 := by simpa [Lim.eqZero] using hz
      have h0 : (((List.nil : List Nat)).length : Int) < n := by simp; omega
      have hb := cl_bound (filter_entity (.channel cid) a.search a.filter) n
        w.channelBatches (channelRequests cid a w) [] h0
      simpa using hb
  | chat gid =>
    rw [iter_chat_yields]
    rcases hp : w.chatFull.chatParticipants with ps | _
    · have hb := ch_bound (filter_entity (.chat gid) a.search a.filter)
        w.chatFull.users n ps 0 (by simpa using hn)
      rw [hlim]
      simpa using hb
    · simpa using hn
  | user uid =>
    rw [iter_user_yields, hlim]
    by_cases hz : (Lim.fin n).eqZero = true
    · rw [if_pos hz]; simpa using hn
    · rw [if_neg hz]
      have hne : n ≠ 0 := by simpa [Lim.eqZero] using hz
      rcases hp : filter_entity (.user uid) a.search a.filter w.fullUser with _ | b
      · simp; omega
      · cases b <;> simp <;> omega

/-- Witness for C1 at a concrete channel run with limit 2 and three
available participants: at most 2 users come out. -/
theorem C1_yields_le_limit_witness :
    ((iter_participants (.channel 9)
      ⟨.fin 2, "", none, false, false⟩
      ⟨0, [[⟨[⟨1, 0⟩, ⟨2, 0⟩, ⟨3, 0⟩],
            [⟨1, "A", none⟩, ⟨2, "B", none⟩, ⟨3, "C", none⟩]⟩]],
        ⟨.forbidden, []⟩, ⟨1, "A", none⟩⟩).yields.length : Int) ≤ 2 :=
  C1_yields_le_limit _ _ _ 2 rfl (by decide)

/-- C2: within one channel/supergroup run of `iter_participants` — in
particular under aggressive sharding with overlapping shard responses — no
two yielded users share an id: the `seen` set skips already-yielded ids and
records each yielded id. -/
theorem C2_channel_ids_nodup (cid : Nat) (a : IterArgs) (w : World) :
    (idsOf (iter_participants (.channel cid) a w).yields).Nodup := by
  rw [iter_channel_yields]
  by_cases hz : a.limit.eqZero = true
  · simp [hz, idsOf]
  · rw [if_neg hz]
    have hb := cl_nodup (filter_entity (.channel cid) a.search a.filter) a.limit
      w.channelBatches (channelRequests cid a w) [] List.nodup_nil
    simpa [List.nodup_reverse] using hb

/-- C3: the planner builds the 26 letter shards exactly when the fetched
count exceeds 10000, aggressive mode is on and no filter is given; with a
filter it builds the single filter request; otherwise the single
plain-search request. -/
theorem C3_planner (cid : Nat) (a : IterArgs) (w : World) :
    (10000 < w.participantsCount ∧ a.aggressive = true ∧ a.filter = none →
      channelRequests cid a w =
        lowercaseLetters.map (fun c =>
          { channel := cid, filter := .search (a.search.push c),
            offset := 0, limit := 200, hash := 0 })) ∧
    (∀ f, a.filter = some f →
      channelRequests cid a w =
        [{ channel := cid, filter := f, offset := 0, limit := 200, hash := 0 }]) ∧
    (a.filter = none → ¬(10000 < w.participantsCount ∧ a.aggressive = true) →
      channelRequests cid a w =
        [{ channel := cid, filter := .search a.search, offset := 0,
           limit := 200, hash := 0 }]) := by
  refine ⟨?_, ?_, ?_⟩
  · rintro ⟨hc, ha, hf⟩
    simp [channelRequests, planRequests, fetchedTotal, effSearch, searchActive,
      hf, ha, hc, Entity.isChannel]
  · intro f hf
    simp [channelRequests, planRequests, fetchedTotal, effSearch, searchActive,
      hf, Entity.isChannel]
  · intro hf hna
    rcases ha : a.aggressive with _ | _
    · simp [channelRequests, planRequests, fetchedTotal, effSearch, searchActive,
        hf, ha, Entity.isChannel]
    · have hc : ¬(10000 < w.participantsCount) := fun hcc => hna ⟨hcc, ha⟩
      simp [channelRequests, planRequests, fetchedTotal, effSearch, searchActive,
        hf, ha, hc, Entity.isChannel]

/-- The loop's break: if the first request's offset already exceeds the
limit, the loop ends normally without fetching. -/
theorem cl_break (pred : TLUser → Option Bool) (lim : Lim)
    (oracle : List (List ChannelParticipantsResult))
    (r : GetParticipantsRequest) (rs : List GetParticipantsRequest)
    (seen : List Nat) (h : lim.ltOffset r.offset = true) :
    channelLoop pred lim oracle (r :: rs) seen = .done [] := by
  cases oracle <;> simp [channelLoop, h]

/-- Every planned request starts at offset 0, and the plan is non-empty. -/
theorem planRequests_offsets (cid : Nat) (search : String)
    (filter : Option ChannelParticipantsFilter) (aggressive : Bool) (total : Nat) :
    planRequests cid search filter aggressive total ≠ [] ∧
    ∀ r ∈ planRequests cid search filter aggressive total, r.offset = 0 := by
  unfold planRequests
  split
  · constructor
    · simp [lowercaseLetters]
    · intro r hr
      simp only [List.mem_map] at hr
      rcases hr with ⟨c, _, rfl⟩
      rfl
  · constructor
    · simp
    · intro r hr
      simp only [List.mem_singleton] at hr
      subst hr
      rfl

/-- With a count already at or past the limit, the basic-group loop yields
nothing more (`have > limit` breaks before the first yield). -/
theorem ch_stop (pred : TLUser → Option Bool) (usersList : List TLUser)
    (n : Int) (ps : List ParticipantRecord) (hcount : Nat)
    (h : n ≤ (hcount : Int)) :
    (chatLoop pred (.fin n) usersList ps hcount).1 = [] := by
  induction ps generalizing hcount with
  | nil => simp [chatLoop]
  | cons p ps ih =>
    simp only [chatLoop]
    rcases hd : dictLookup usersList p.user_id with _ | u
    · simp
    · simp only []
      rcases hp : pred u with _ | b
      · simp
      · simp only []
        by_cases hb : (!b) = true
        · rw [if_pos hb]; exact ih hcount h
        · rw [if_neg hb]
          have hc : Lim.ltCount (.fin n) (hcount + 1) = true := by
            simp only [Lim.ltCount, decide_eq_true_eq]
            push_cast
            omega
          rw [if_pos hc]

def BatchRes.reqsOf : BatchRes → List GetParticipantsRequest
  | .cont reqs _ _ => reqs
  | _ => []

/-- Every request surviving a batch is one of the incoming pairs with its
offset advanced by that response's participant count. -/
theorem pr_mem (pred : TLUser → Option Bool) (lim : Lim)
    (pairs : List (GetParticipantsRequest × ChannelParticipantsResult))
    (seen : List Nat) (reqs' : List GetParticipantsRequest)
    (seen' : List Nat) (ys : List EnrichedUser)
    (h : processReversed pred lim pairs seen = .cont reqs' seen' ys) :
    ∀ x ∈ reqs', ∃ p ∈ pairs,
      x = { p.1 with offset := p.1.offset + p.2.participants.length } := by
  induction pairs generalizing seen reqs' seen' ys with
  | nil =>
    simp only [processReversed] at h
    cases h
    simp
  | cons pr rest ih =>
    rcases pr with ⟨r, res⟩
    simp only [processReversed] at h
    by_cases he : res.users.isEmpty = true
    · rw [if_pos he] at h
      intro x hx
      rcases ih seen reqs' seen' ys h x hx with ⟨p, hp, hpe⟩
      exact ⟨p, List.mem_cons_of_mem _ hp, hpe⟩
    · rw [if_neg he] at h
      rcases hx : (processParticipants pred lim res.users res.participants seen).exit with _ | _ | e
      · rw [hx] at h
        simp only [] at h
        rcases hres : processReversed pred lim rest
            (processParticipants pred lim res.users res.participants seen).seen with
          ⟨reqs2, seen2, ys2⟩ | ⟨seen2, ys2⟩ | ⟨e2, seen2, ys2⟩
        · rw [hres] at h
          cases h
          intro x hx2
          rcases List.mem_append.mp hx2 with hleft | hright
          · rcases ih _ _ _ _ hres x hleft with ⟨p, hp, hpe⟩
            exact ⟨p, List.mem_cons_of_mem _ hp, hpe⟩
          · refine ⟨(r, res), List.mem_cons_self _ _, ?_⟩
            simpa using List.mem_singleton.mp hright
        · rw [hres] at h; cases h
        · rw [hres] at h; cases h
      · rw [hx] at h; simp only [] at h; cases h
      · rw [hx] at h; simp only [] at h; cases h

/-- Clamping only rewrites the first request's page size. -/
theorem clampFirst_mem (lim : Lim) (reqs : List GetParticipantsRequest)
    (x : GetParticipantsRequest) (h : x ∈ clampFirst lim reqs) :
    ∃ r ∈ reqs, r.channel = x.channel ∧ r.filter = x.filter ∧ r.offset = x.offset := by
  rcases reqs with _ | ⟨r, rs⟩
  · simp [clampFirst] at h
  · simp only [clampFirst] at h
    rcases List.mem_cons.mp h with rfl | hm
    · exact ⟨r, List.mem_cons_self _ _, rfl, rfl, rfl⟩
    · exact ⟨x, List.mem_cons_of_mem _ hm, rfl, rfl, rfl⟩

/-- C6 (amended): request offsets only ever grow — each surviving request
is an incoming one (same channel and filter) with its offset advanced by
its response's participant count; only the first request's page size is
rewritten each iteration; and the loop ends normally once the first
request's offset exceeds the limit.  The offsets of requests other than
the current first one are not bounded by the limit. -/
theorem C6_offsets_monotone (pred : TLUser → Option Bool) (lim : Lim)
    (reqs : List GetParticipantsRequest) (batch : List ChannelParticipantsResult)
    (seen : List Nat) :
    (∀ reqs' seen' ys, chanStep pred lim reqs batch seen = .cont reqs' seen' ys →
      ∀ x ∈ reqs', ∃ r ∈ reqs,
        r.channel = x.channel ∧ r.filter = x.filter ∧ r.offset ≤ x.offset) ∧
    (∀ oracle r rs s, lim.ltOffset r.offset = true →
      channelLoop pred lim oracle (r :: rs) s = .done []) ∧
    (∀ r rs, clampFirst lim (r :: rs) =
      { r with limit := lim.pageSize r.offset } :: rs) := by
  refine ⟨?_, ?_, ?_⟩
  · intro reqs' seen' ys h x hx
    rcases pr_mem pred lim (((clampFirst lim reqs).zip batch).reverse) seen
        reqs' seen' ys h x hx with ⟨p, hp, hpe⟩
    have hzip : p ∈ (clampFirst lim reqs).zip batch := (List.mem_reverse).mp hp
    have hcl : p.1 ∈ clampFirst lim reqs := by
      rcases p with ⟨p1, p2⟩
      exact (List.of_mem_zip hzip).1
    rcases clampFirst_mem lim reqs p.1 hcl with ⟨r, hr, hch, hfi, hoff⟩
    refine ⟨r, hr, ?_, ?_, ?_⟩
    · rw [hpe]; exact hch
    · rw [hpe]; exact hfi
    · rw [hpe]
      simp only []
      omega
  · intro oracle r rs s h
    exact cl_break pred lim oracle r rs s h
  · intro r rs
    rfl

/-- The channel branch's initial requests all start at offset 0 and the
list is never empty. -/
theorem channelRequests_offsets (cid : Nat) (a : IterArgs) (w : World) :
    channelRequests cid a w ≠ [] ∧ ∀ r ∈ channelRequests cid a w, r.offset = 0 :=
  planRequests_offsets cid (effSearch (.channel cid) a.search a.filter)
    a.filter a.aggressive (fetchedTotal a w)

/-- C6 counterexample to the claim as stated: with limit 5, aggressive
26-way sharding and every shard answering 10 copies of the same user, the
loop's very first iteration leaves every shard at offset 10 > 5 and
continues — request offsets are not bounded by the limit. -/
theorem C6_counterexample :
    ((chanStep (filter_entity (.channel 9) "" none) (.fin 5)
      (channelRequests 9 ⟨.fin 5, "", none, true, false⟩
        ⟨15000, [], ⟨.forbidden, []⟩, ⟨1, "A", none⟩⟩)
      (List.replicate 26 ⟨List.replicate 10 ⟨1, 0⟩, [⟨1, "A", none⟩]⟩)
      []).isCont = true) ∧
    ((chanStep (filter_entity (.channel 9) "" none) (.fin 5)
      (channelRequests 9 ⟨.fin 5, "", none, true, false⟩
        ⟨15000, [], ⟨.forbidden, []⟩, ⟨1, "A", none⟩⟩)
      (List.replicate 26 ⟨List.replicate 10 ⟨1, 0⟩, [⟨1, "A", none⟩]⟩)
      []).reqsOf.any (fun r => 5 < (r.offset : Int)) = true) := by
  constructor
  · decide
  · decide

/-- Witness for the amended C6: one concrete surviving request advanced its
offset from 0 to 1 and kept its channel and filter. -/
theorem C6_offsets_monotone_witness :
    ∃ r ∈ [({ channel := 9, filter := .search "", offset := 0, limit := 200,
              hash := 0 } : GetParticipantsRequest)],
      r.channel = 9 ∧ r.filter = .search "" ∧ r.offset ≤ 1 :=
  (C6_offsets_monotone (filter_entity (.channel 9) "" none) .inf
      [{ channel := 9, filter := .search "", offset := 0, limit := 200, hash := 0 }]
      [⟨[⟨7, 0⟩], [⟨7, "Z", none⟩]⟩] []).1
    [{ channel := 9, filter := .search "", offset := 1, limit := 200, hash := 0 }]
    [7] [⟨⟨7, "Z", none⟩, some ⟨7, 0⟩⟩] (by decide)
    { channel := 9, filter := .search "", offset := 1, limit := 200, hash := 0 }
    (by decide)

/-- C7: whenever the iterator run (with a total cell supplied, as
`get_participants` always does) finishes normally, `get_participants`
returns exactly its yields in order, with `.total` equal to the value the
run wrote into the cell. -/
theorem C7_get_participants_refines (entity : Entity) (a : IterArgs) (w : World)
    (h : (iter_participants entity { a with hasTotal := true } w).outcome = .ok) :
    get_participants entity a w =
      .ok (iter_participants entity { a with hasTotal := true } w).yields
        ((iter_participants entity { a with hasTotal := true } w).totalWritten.getD 0) := by
  simp only [get_participants, h]

/-- Witness for C7 at a concrete single-user call. -/
theorem C7_get_participants_refines_witness :
    get_participants (.user 1) ⟨.inf, "", none, false, false⟩
      ⟨0, [], ⟨.forbidden, []⟩, ⟨1, "A", none⟩⟩ =
      .ok [⟨⟨1, "A", none⟩, none⟩] 1 := by
  rw [C7_get_participants_refines (.user 1) ⟨.inf, "", none, false, false⟩
    ⟨0, [], ⟨.forbidden, []⟩, ⟨1, "A", none⟩⟩ rfl]
  decide

/-- C8: the single-user fallback reports total 1 whenever a total cell is
supplied; yields nothing when the limit is 0; and with a non-zero limit
applies the predicate to the resolved user and yields exactly that user
with no participant record if it matches (nothing if it does not). -/
theorem C8_single_user (uid : Nat) (a : IterArgs) (w : World) :
    (a.hasTotal = true → (iter_participants (.user uid) a w).totalWritten = some 1) ∧
    (a.limit.eqZero = true → (iter_participants (.user uid) a w).yields = []) ∧
    (a.limit.eqZero = false →
      filter_entity (.user uid) a.search a.filter w.fullUser = some true →
      (iter_participants (.user uid) a w).yields = [⟨w.fullUser, none⟩]) ∧
    (a.limit.eqZero = false →
      filter_entity (.user uid) a.search a.filter w.fullUser = some false →
      (iter_participants (.user uid) a w).yields = []) := by
  refine ⟨?_, ?_, ?_, ?_⟩
  · intro ht
    simp only [iter_participants, ht]
    by_cases hz : a.limit.eqZero = true
    · simp [hz]
    · simp only [if_neg hz]
      rcases hp : filter_entity (.user uid) a.search a.filter w.fullUser with _ | b
      · simp
      · cases b <;> simp
  · intro hz
    rw [iter_user_yields, if_pos hz]
  · intro hz hp
    simp [iter_user_yields, hz, hp]
  · intro hz hp
    simp [iter_user_yields, hz, hp]

/-- Witness for C8: concrete single-user run with an infinite limit. -/
theorem C8_single_user_witness :
    (iter_participants (.user 1) ⟨.inf, "", none, false, true⟩
      ⟨0, [], ⟨.forbidden, []⟩, ⟨1, "A", none⟩⟩).totalWritten = some 1 ∧
    (iter_participants (.user 1) ⟨.inf, "", none, false, true⟩
      ⟨0, [], ⟨.forbidden, []⟩, ⟨1, "A", none⟩⟩).yields = [⟨⟨1, "A", none⟩, none⟩] :=
  ⟨(C8_single_user 1 ⟨.inf, "", none, false, true⟩
      ⟨0, [], ⟨.forbidden, []⟩, ⟨1, "A", none⟩⟩).1 rfl,
   (C8_single_user 1 ⟨.inf, "", none, false, true⟩
      ⟨0, [], ⟨.forbidden, []⟩, ⟨1, "A", none⟩⟩).2.2.1 rfl (by decide)⟩

/-- C4 (evaluating the code at the failing input): a basic group whose
full-metadata fetch returns the forbidden participants variant ends with
an empty yield sequence and total 0 when a total cell is supplied, but
raises a TypeError (`None[0] = 0`) when no cell is supplied. -/
theorem C4_forbidden_chat_eval :
    iter_participants (.chat 5) ⟨.inf, "", none, false, true⟩
      ⟨0, [], ⟨.forbidden, []⟩, ⟨1, "A", none⟩⟩ = ⟨[], some 0, .ok⟩ ∧
    iter_participants (.chat 5) ⟨.inf, "", none, false, false⟩
      ⟨0, [], ⟨.forbidden, []⟩, ⟨1, "A", none⟩⟩ = ⟨[], none, .exn .typeError⟩ := by
  constructor
  · decide
  · decide

/-- C5 (evaluating the code at the failing input): the active local
predicate matches John via name/username, returns false for a user whose
non-empty username does not match, but raises an AttributeError
(`None.lower()`) for a user with no username and a non-matching name. -/
theorem C5_predicate_eval :
    filter_entity (.user 10) "jo" none ⟨10, "John", some "jo_smith"⟩ = some true ∧
    filter_entity (.user 12) "jo" none ⟨12, "Delia", some "delia99"⟩ = some false ∧
    filter_entity (.user 11) "jo" none ⟨11, "Alice", none⟩ = none ∧
    filter_entity (.user 13) "jo" none ⟨13, "Bob", some ""⟩ = none := by
  refine ⟨?_, ?_, ?_, ?_⟩ <;> decide

/-- C9: a response whose participant records mention a user id absent from
the accompanying user list makes the enumeration raise a KeyError — in the
channel path and in the basic-group path alike — instead of skipping the
orphan record. -/
theorem C9_orphan_lookup_raises :
    (iter_participants (.channel 9) ⟨.inf, "", none, false, false⟩
      ⟨0, [[⟨[⟨3, 0⟩], [⟨1, "A", none⟩]⟩]], ⟨.forbidden, []⟩,
        ⟨1, "A", none⟩⟩).outcome = .exn .keyError ∧
    (iter_participants (.chat 5) ⟨.inf, "", none, false, false⟩
      ⟨0, [], ⟨.participantsOk [⟨3, 0⟩], [⟨1, "A", none⟩]⟩,
        ⟨1, "A", none⟩⟩).outcome = .exn .keyError := by
  constructor
  · decide
  · decide

/-- C10: with a negative limit the channel path breaks before any fetch and
the basic-group path breaks before its first yield, both yielding nothing,
while the single-user fallback (testing only `limit != 0`) still yields its
one matching user — the three paths disagree. -/
theorem C10_negative_limit (a : IterArgs) (w : World) (n : Int)
    (cid gid uid : Nat) (hlim : a.limit = .fin n) (hn : n < 0) :
    (iter_participants (.channel cid) a w).yields = [] ∧
    (iter_participants (.chat gid) a w).yields = [] ∧
    (filter_entity (.user uid) a.search a.filter w.fullUser = some true →
      (iter_participants (.user uid) a w).yields = [⟨w.fullUser, none⟩]) := by
  have hnz : n ≠ 0 := by omega
  refine ⟨?_, ?_, ?_⟩
  · rw [iter_channel_yields, hlim]
    rw [if_neg (by simp [Lim.eqZero, hnz])]
    rcases hreq : channelRequests cid a w with _ | ⟨r, rs⟩
    · exact absurd hreq (channelRequests_offsets cid a w).1
    · have hoff : r.offset = 0 :=
        (channelRequests_offsets cid a w).2 r (hreq ▸ List.mem_cons_self r rs)
      have hbr : Lim.ltOffset (.fin n) r.offset = true := by
        simp [Lim.ltOffset, hoff]
        omega
      rw [cl_break _ _ _ _ _ _ hbr]
      rfl
  · rw [iter_chat_yields, hlim]
    rcases hp : w.chatFull.chatParticipants with ps | _
    · exact ch_stop _ _ n ps 0 (by push_cast; omega)
    · rfl
  · intro hp
    simp [iter_user_yields, hlim, Lim.eqZero, hnz, hp]

/-- Witness for C10 at limit -3 with one available participant per path. -/
theorem C10_negative_limit_witness :
    (iter_participants (.channel 9) ⟨.fin (-3), "", none, false, false⟩
      ⟨0, [[⟨[⟨1, 0⟩], [⟨1, "A", none⟩]⟩]], ⟨.participantsOk [⟨1, 0⟩], [⟨1, "A", none⟩]⟩,
        ⟨1, "A", none⟩⟩).yields = [] ∧
    (iter_participants (.chat 5) ⟨.fin (-3), "", none, false, false⟩
      ⟨0, [[⟨[⟨1, 0⟩], [⟨1, "A", none⟩]⟩]], ⟨.participantsOk [⟨1, 0⟩], [⟨1, "A", none⟩]⟩,
        ⟨1, "A", none⟩⟩).yields = [] ∧
    (iter_participants (.user 1) ⟨.fin (-3), "", none, false, false⟩
      ⟨0, [[⟨[⟨1, 0⟩], [⟨1, "A", none⟩]⟩]], ⟨.participantsOk [⟨1, 0⟩], [⟨1, "A", none⟩]⟩,
        ⟨1, "A", none⟩⟩).yields = [⟨⟨1, "A", none⟩, none⟩] := by
  have h := C10_negative_limit ⟨.fin (-3), "", none, false, false⟩
    ⟨0, [[⟨[⟨1, 0⟩], [⟨1, "A", none⟩]⟩]], ⟨.participantsOk [⟨1, 0⟩], [⟨1, "A", none⟩]⟩,
      ⟨1, "A", none⟩⟩ (-3) 9 5 1 rfl (by decide)
  exact ⟨h.1, h.2.1, h.2.2 (by decide)⟩

/-- Witness for C3: with count 15000 and aggressive mode, no filter gives
the 26 letter shards while a structural filter gives a single request. -/
theorem C3_planner_witness :
    channelRequests 9 ⟨.inf, "x", none, true, false⟩
      ⟨15000, [], ⟨.forbidden, []⟩, ⟨1, "A", none⟩⟩ =
      lowercaseLetters.map (fun c =>
        { channel := 9, filter := .search ("x".push c), offset := 0,
          limit := 200, hash := 0 }) ∧
    channelRequests 9 ⟨.inf, "x", some (.structural 3), true, false⟩
      ⟨15000, [], ⟨.forbidden, []⟩, ⟨1, "A", none⟩⟩ =
      [{ channel := 9, filter := .structural 3, offset := 0, limit := 200,
         hash := 0 }] :=
  ⟨(C3_planner 9 ⟨.inf, "x", none, true, false⟩
      ⟨15000, [], ⟨.forbidden, []⟩, ⟨1, "A", none⟩⟩).1 ⟨by decide, rfl, rfl⟩,
   (C3_planner 9 ⟨.inf, "x", some (.structural 3), true, false⟩
      ⟨15000, [], ⟨.forbidden, []⟩, ⟨1, "A", none⟩⟩).2.1 (.structural 3) rfl⟩
